import Mathlib

/-!
# Verification of the analytical core of the `lyapunov` dashboard

Shallow embedding, over exact rationals, of the numerical feature-extraction
functions of the repository's frontend:

* `calculateLyapunovExponent`, `classifyDynamicalState`, `detectRegimeChange`,
  `calculateAnomalyScore`, `computeBifurcationData`
  (`frontend/components/playground-view.tsx`);
* `computePoincareFromData`, `computeBifurcationFromData`
  (`frontend/components/export-view.tsx`);
* `interpolateTrajectory`, `normalizeValue`
  (`frontend/components/visualization/page.tsx`).

JavaScript numbers are modelled as `ℚ`; `Math.log` is an uninterpreted
parameter (only its output values flow into sums); `Math.round x` is
`⌊x + 1/2⌋` (JS rounds ties toward +∞).  Samples are association lists from
channel names to rationals; the JS accessors `d[k] ?? 0` and `d[k] || 0`
coincide on this model (a stored 0 reads back as 0 either way).
-/

/-- A multichannel sample: `interface ChannelMap { [key: string]: number }`. -/
abbrev Sample := List (String × ℚ)

/-- Channel access with default 0: `d[key] ?? 0` (also `d[key] || 0` on `ℚ`). -/
def chan (d : Sample) (k : String) : ℚ := (d.lookup k).getD 0

/-- Time access with index fallback: `data[i].t ?? i`. -/
def chanT (d : Sample) (i : ℕ) : ℚ := (d.lookup "t").getD (i : ℚ)

/-- `list.reduce((a, b) => a + b, 0)`. -/
def jsSum (l : List ℚ) : ℚ := l.foldl (· + ·) 0

/-- `Math.round`: JavaScript rounds half-up (ties toward `+∞`). -/
def jsRound (q : ℚ) : ℤ := ⌊q + 1/2⌋

/-- `Math.min(...l)` over a non-empty spread (the `[]` value is never used:
every call site is guarded by a non-emptiness check). -/
def listMin : List ℚ → ℚ
  | [] => 0
  | x :: xs => xs.foldl min x

/-- `Math.max(...l)` over a non-empty spread. -/
def listMax : List ℚ → ℚ
  | [] => 0
  | x :: xs => xs.foldl max x

/-- `l.slice(-n)`: the last `n` elements (all of them when `l.length < n`). -/
def takeLast (n : ℕ) (l : List ℚ) : List ℚ := l.drop (l.length - n)

/-! ## 4.3 Regime classifier (`classifyDynamicalState`, playground-view.tsx) -/

/-- Result record of `classifyDynamicalState`. -/
structure ClassifiedState where
  state : String
  color : String
  confidence : ℚ
  deriving DecidableEq, Repr

/-- `classifyDynamicalState` (playground-view.tsx, lines 149–178), verbatim
threshold chain. -/
def classifyDynamicalState : Option ℚ → ClassifiedState
  | none => ⟨"Unknown", "text-gray-500", 0⟩
  | some lyapunov =>
    if lyapunov < -0.05 then ⟨"Stable / Fixed Point", "text-blue-500", 0.9⟩
    else if lyapunov < -0.01 then ⟨"Stable", "text-blue-400", 0.7⟩
    else if lyapunov < 0.01 then ⟨"Periodic / Limit Cycle", "text-green-500", 0.8⟩
    else if lyapunov < 0.1 then ⟨"Quasi-Periodic", "text-yellow-500", 0.7⟩
    else ⟨"Chaotic", "text-red-500", 0.85⟩

/-! ## 4.4 Regime-change detector (`detectRegimeChange`, playground-view.tsx) -/

/-- `detectRegimeChange` (playground-view.tsx, lines 180–187):
compare the mean of `history.slice(-10)` against `history.slice(-20, -10)`. -/
def detectRegimeChange (history : List ℚ) : Bool :=
  if history.length < 20 then false
  else
    let recent := history.drop (history.length - 10)
    let older := (history.take (history.length - 10)).drop (history.length - 20)
    let recentAvg := jsSum recent / recent.length
    let olderAvg := jsSum older / older.length
    decide (|recentAvg - olderAvg| > 0.1)

/-! ## 4.5 Anomaly scorer (`calculateAnomalyScore`, playground-view.tsx) -/

/-- `calculateAnomalyScore` (playground-view.tsx, lines 189–201).  Note the
source divides the `slice(-50)` sums by the constant `50`, not by the number
of samples actually present in the slice. -/
def calculateAnomalyScore (current : List Sample) (baseline : Option (List Sample)) : ℚ :=
  match baseline with
  | none => 0
  | some b =>
    if b.length < 10 ∨ current.length < 10 then 0
    else
      let currentMean := jsSum ((takeLast 50 (current.map (chan · "x")))) / 50
      let baselineMean := jsSum ((takeLast 50 (b.map (chan · "x")))) / 50
      |currentMean - baselineMean| / (if |baselineMean| = 0 then 1 else |baselineMean|)

/-- The anomaly score as the claim words it: `currentMean`/`baselineMean`
are the true means of channel "x" over the last 50 samples (dividing by the
number of samples the window actually holds).  Written from the claim text,
for comparison against `calculateAnomalyScore`. -/
def anomalyScoreClaimMean (current : List Sample) (baseline : Option (List Sample)) : ℚ :=
  match baseline with
  | none => 0
  | some b =>
    if b.length < 10 ∨ current.length < 10 then 0
    else
      let curWin := takeLast 50 (current.map (chan · "x"))
      let baseWin := takeLast 50 (b.map (chan · "x"))
      let currentMean := jsSum curWin / curWin.length
      let baselineMean := jsSum baseWin / baseWin.length
      |currentMean - baselineMean| / (if |baselineMean| = 0 then 1 else |baselineMean|)

/-! ## Normalization (`normalizeValue`, visualization/page.tsx) -/

/-- `const FACTOR = 1` (visualization/page.tsx, line 12). -/
def FACTOR : ℚ := 1

/-- The extrema tracker `{ min[3], max[3] }` feeding normalization. -/
structure Extrema where
  min : List ℚ
  max : List ℚ
  deriving DecidableEq, Repr

/-- `normalizeValue` (visualization/page.tsx, lines 497–503):
`range > 0 ? (FACTOR * (v - min)) / range : FACTOR * 0.5`. -/
def normalizeValue (e : Extrema) (v : ℚ) (i : ℕ) : ℚ :=
  let mn := e.min.getD i 0
  let mx := e.max.getD i 0
  let range := mx - mn
  if range > 0 then (FACTOR * (v - mn)) / range else FACTOR * 0.5

/-! ## 4.2 Windowed Lyapunov estimator (`calculateLyapunovExponent`,
playground-view.tsx, lines 128–147).  `Math.log` enters only through the
values it returns, so it is taken as a parameter `log`. -/

/-- `calculateLyapunovExponent`: the `for (let i = 10; i < values.length - 10)`
loop is a fold over `range' 10 (len - 20)` carrying `(sum, count)`. -/
def calculateLyapunovExponent (log : ℚ → ℚ) (data : List Sample)
    (channel : String) : Option ℚ :=
  if data.length < 100 then none
  else
    let values := data.map (chan · channel)
    let sc := (List.range' 10 (values.length - 20)).foldl
      (fun sc i =>
        if |values.getD (i + 1) 0 - values.getD i 0| > 1e-10 then
          (sc.1 + log |values.getD (i + 1) 0 - values.getD i 0|, sc.2 + 1)
        else sc)
      ((0 : ℚ), (0 : ℕ))
    if sc.2 > 0 then some (sc.1 / sc.2) else none

/-- The multiset of log-contributions the claim describes: for each
`i ∈ [10, length - 10)`, `delta = |value[i+1] - value[i]|` contributes
`log delta` exactly when `delta > 1e-10`. -/
def lyapunovContribs (log : ℚ → ℚ) (data : List Sample) (channel : String) : List ℚ :=
  let values := data.map (chan · channel)
  (List.range' 10 (values.length - 20)).filterMap
    (fun i =>
      if |values.getD (i + 1) 0 - values.getD i 0| > 1e-10 then
        some (log |values.getD (i + 1) 0 - values.getD i 0|)
      else none)

/-! ## 4.1 Trajectory resampler (`interpolateTrajectory`,
visualization/page.tsx, lines 26–66). -/

/-- A 3D point projected from a sample. -/
structure Point3 where
  x : ℚ
  y : ℚ
  z : ℚ
  deriving DecidableEq, Repr

/-- `THREE.MathUtils.lerp(a, b, t) = a + (b - a) * t`. -/
def lerp (a b t : ℚ) : ℚ := a + (b - a) * t

/-- `lerpVec` (visualization/page.tsx, lines 17–23). -/
def lerpVec (a b : Point3) (t : ℚ) : Point3 :=
  ⟨lerp a.x b.x t, lerp a.y b.y t, lerp a.z b.z t⟩

/-- The interpolation mode selector `"none" | "linear" | "catmullRom"`. -/
inductive InterpMethod where
  | none
  | linear
  | catmullRom
  deriving DecidableEq, Repr

/-- `interpolateTrajectory` (visualization/page.tsx, lines 26–66).
`THREE.CatmullRomCurve3` is an external library; its documented
`getPoints(d)` contract returns `d + 1` samples of the curve at uniform
parameters `i / d`, so the curve-point evaluation is abstracted as the
parameter `curveAt` (the claims under verification do not depend on the
sampled coordinates, only on output lengths and the index map). -/
def interpolateTrajectory (curveAt : List Point3 → ℚ → Point3)
    (pts : List Point3) (method : InterpMethod) (segmentsPerEdge : ℕ) :
    List Point3 × List ℕ :=
  if pts.length ≤ 1 ∨ method = InterpMethod.none then
    (pts, List.range pts.length)
  else if method = InterpMethod.linear then
    let n := pts.length
    ((List.range (n - 1)).flatMap
        (fun i =>
          (List.range segmentsPerEdge).map
            (fun (s : ℕ) => lerpVec (pts.getD i ⟨0, 0, 0⟩) (pts.getD (i + 1) ⟨0, 0, 0⟩)
              ((s : ℚ) / segmentsPerEdge)))
      ++ [pts.getD (n - 1) ⟨0, 0, 0⟩],
     (List.range (n - 1)).flatMap (fun i => List.replicate segmentsPerEdge i)
      ++ [n - 1])
  else
    let n := pts.length
    let totalSegments := max 1 ((n - 1) * segmentsPerEdge)
    ((List.range (totalSegments + 1)).map
        (fun (i : ℕ) => curveAt pts ((i : ℚ) / totalSegments)),
     (List.range (totalSegments + 1)).map
        (fun (i : ℕ) =>
          (min ((n : ℤ) - 1)
            (max 0 (jsRound (((i : ℚ) / totalSegments) * ((n : ℤ) - 1))))).toNat))

/-! ## 4.7 Poincaré section extractor (`computePoincareFromData`,
export-view.tsx, lines 51–98). -/

/-- The `crossingDirection` option. -/
inductive CrossingDirection where
  | positive
  | negative
  | both
  deriving DecidableEq, Repr

/-- The options record of `computePoincareFromData`.  The source field
`section` is a Lean keyword and is rendered `sect`. -/
structure PoincareOptions where
  sect : String
  sectionValue : ℚ
  crossingDirection : CrossingDirection
  transient : ℕ
  deriving DecidableEq, Repr

/-- An emitted crossing point `{x, y, z, t, index}`. -/
structure PoincarePoint where
  x : ℚ
  y : ℚ
  z : ℚ
  t : ℚ
  index : ℕ
  deriving DecidableEq, Repr

/-- `points.push({x: data[i].x ?? 0, y: …, z: …, t: data[i].t ?? i, index: i})`. -/
def mkCrossingPoint (d : Sample) (i : ℕ) : PoincarePoint :=
  ⟨chan d "x", chan d "y", chan d "z", chanT d i, i⟩

/-- The loop body of `computePoincareFromData`, indices carried explicitly:
`rest` holds the samples at absolute indices `i, i+1, …`.  Note the
`if (i < transient) continue;` skips the trailing `lastValue = currentValue`
assignment as well, so `lastValue` is frozen through the transient prefix. -/
def poincareGo (o : PoincareOptions) : ℕ → ℚ → List Sample → List PoincarePoint
  | _, _, [] => []
  | i, lastValue, d :: rest =>
    if i < o.transient then poincareGo o (i + 1) lastValue rest
    else
      let currentValue := chan d o.sect
      let tail := poincareGo o (i + 1) currentValue rest
      if ((lastValue < o.sectionValue ∧ o.sectionValue ≤ currentValue) ∨
            (o.sectionValue < lastValue ∧ currentValue ≤ o.sectionValue)) ∧
          (o.crossingDirection = CrossingDirection.both ∨
            (o.crossingDirection = CrossingDirection.positive ∧
              o.sectionValue ≤ currentValue) ∨
            (o.crossingDirection = CrossingDirection.negative ∧
              ¬ o.sectionValue ≤ currentValue)) then
        mkCrossingPoint d i :: tail
      else tail

/-- `computePoincareFromData` (export-view.tsx, lines 51–98). -/
def computePoincareFromData (data : List Sample) (o : PoincareOptions) :
    List PoincarePoint :=
  if data.length < 2 then []
  else
    match data with
    | [] => []
    | d0 :: rest => poincareGo o 1 (chan d0 o.sect) rest

/-- The crossing-and-emission test of the claim: a crossing is detected
exactly when `(lastV < sectionValue ∧ curV ≥ sectionValue)` or
`(lastV > sectionValue ∧ curV ≤ sectionValue)`; it is classified positive
exactly when `curV ≥ sectionValue`, and it is emitted exactly when the
requested direction is `both` or matches that classification. -/
def poincareEmits (o : PoincareOptions) (lastV curV : ℚ) : Prop :=
  ((lastV < o.sectionValue ∧ o.sectionValue ≤ curV) ∨
    (o.sectionValue < lastV ∧ curV ≤ o.sectionValue)) ∧
  (o.crossingDirection = CrossingDirection.both ∨
    (o.crossingDirection = CrossingDirection.positive ∧ o.sectionValue ≤ curV) ∨
    (o.crossingDirection = CrossingDirection.negative ∧ ¬ o.sectionValue ≤ curV))

instance (o : PoincareOptions) (lastV curV : ℚ) :
    Decidable (poincareEmits o lastV curV) := by
  unfold poincareEmits
  infer_instance

/-- The extractor as the claim describes the loop state: for each non-skipped
index `i ∈ [1, length)`, a crossing is tested on the pair
`(lastValue, currentValue)` where `lastValue` is the section-channel value of
sample 0 at the first processed index `max 1 transient` and of sample `i - 1`
afterwards, and the full-state sample plus original index is emitted per
`poincareEmits`. -/
def poincareCrossingSpec (data : List Sample) (o : PoincareOptions) :
    List PoincarePoint :=
  if data.length < 2 then []
  else
    (List.range' 1 (data.length - 1)).filterMap (fun i =>
      if i < o.transient then none
      else if poincareEmits o
          (if i = max 1 o.transient then chan (data.getD 0 []) o.sect
           else chan (data.getD (i - 1) []) o.sect)
          (chan (data.getD i []) o.sect) then
        some (mkCrossingPoint (data.getD i []) i)
      else none)

/-- Comparison definition for the transient claim: the same extractor but with
`lastValue` updated on every iteration, including the skipped transient prefix
(the behaviour the spec recommends and the claim asserts). -/
def poincareGoUpd (o : PoincareOptions) : ℕ → ℚ → List Sample → List PoincarePoint
  | _, _, [] => []
  | i, lastValue, d :: rest =>
    let currentValue := chan d o.sect
    if i < o.transient then poincareGoUpd o (i + 1) currentValue rest
    else
      let tail := poincareGoUpd o (i + 1) currentValue rest
      if ((lastValue < o.sectionValue ∧ o.sectionValue ≤ currentValue) ∨
            (o.sectionValue < lastValue ∧ currentValue ≤ o.sectionValue)) ∧
          (o.crossingDirection = CrossingDirection.both ∨
            (o.crossingDirection = CrossingDirection.positive ∧
              o.sectionValue ≤ currentValue) ∨
            (o.crossingDirection = CrossingDirection.negative ∧
              ¬ o.sectionValue ≤ currentValue)) then
        mkCrossingPoint d i :: tail
      else tail

/-- The claim's reading of `computePoincareFromData`: `lastValue` tracked
through the skipped prefix. -/
def computePoincareAlwaysUpdate (data : List Sample) (o : PoincareOptions) :
    List PoincarePoint :=
  if data.length < 2 then []
  else
    match data with
    | [] => []
    | d0 :: rest => poincareGoUpd o 1 (chan d0 o.sect) rest

/-! ## 4.6 Bifurcation binners. -/

/-- `Math.round(v * 10) / 10` (playground-view.tsx deduplication rounding). -/
def round1 (q : ℚ) : ℚ := (jsRound (q * 10) : ℚ) / 10

/-- `Math.round(v * 100) / 100` (export-view.tsx deduplication rounding). -/
def round2 (q : ℚ) : ℚ := (jsRound (q * 100) : ℚ) / 100

/-- `new Set(...)` materialised as a list: keeps first occurrences, in
insertion order. -/
def jsSetList (l : List ℚ) : List ℚ :=
  l.foldl (fun acc v => if v ∈ acc then acc else acc ++ [v]) []

/-- `computeBifurcationData` (playground-view.tsx, lines 203–236): 30 fixed
bins over channel "x" as parameter and "y" as observable; a point falls in
bin `i` iff `binMin ≤ p ∧ p < binMax` (both bounds from the loop). -/
def computeBifurcationData (data : List Sample) : List (ℚ × ℚ) :=
  if data.length < 50 then []
  else
    let params := data.map (chan · "x")
    let observables := data.map (chan · "y")
    let minParam := listMin params
    let maxParam := listMax params
    let binWidth := (maxParam - minParam) / 30
    (List.range 30).flatMap
      (fun i =>
        let binMin := minParam + i * binWidth
        let binMax := binMin + binWidth
        let inBin := (params.zip observables).filterMap
          (fun pv => if binMin ≤ pv.1 ∧ pv.1 < binMax then some pv.2 else none)
        if inBin.isEmpty then []
        else (jsSetList (inBin.map round1)).map (fun v => ((binMin + binMax) / 2, v)))

/-- Options record of `computeBifurcationFromData`. -/
structure BifOptions where
  parameterKey : String
  observableKey : String
  numBins : ℕ
  transient : ℕ
  deriving DecidableEq, Repr

/-- The post-transient `(param, observable)` pairs extracted by
`computeBifurcationFromData`. -/
def bifValues (data : List Sample) (o : BifOptions) : List (ℚ × ℚ) :=
  (data.drop o.transient).map
    (fun d => (chan d o.parameterKey, chan d o.observableKey))

/-- `minParam` of `computeBifurcationFromData`. -/
def bifMinParam (data : List Sample) (o : BifOptions) : ℚ :=
  listMin ((bifValues data o).map Prod.fst)

/-- `maxParam` of `computeBifurcationFromData`. -/
def bifMaxParam (data : List Sample) (o : BifOptions) : ℚ :=
  listMax ((bifValues data o).map Prod.fst)

/-- `binWidth = paramRange / numBins`. -/
def bifBinWidth (data : List Sample) (o : BifOptions) : ℚ :=
  (bifMaxParam data o - bifMinParam data o) / o.numBins

/-- `binCenter = minParam + (binIndex + 0.5) * binWidth` with
`binIndex = Math.floor((param - minParam) / binWidth)` — note: no clamp. -/
def bifBinCenter (data : List Sample) (o : BifOptions) (p : ℚ) : ℚ :=
  bifMinParam data o +
    ((⌊(p - bifMinParam data o) / bifBinWidth data o⌋ : ℚ) + 1/2) *
      bifBinWidth data o

/-- `Map.get`/`Map.set` plus `Set.add` on an insertion-ordered association
list: the `bins` accumulator of `computeBifurcationFromData`. -/
def insertBin (m : List (ℚ × List ℚ)) (k v : ℚ) : List (ℚ × List ℚ) :=
  match m with
  | [] => [(k, [v])]
  | (k', vs) :: rest =>
    if k' = k then (k', if v ∈ vs then vs else vs ++ [v]) :: rest
    else (k', vs) :: insertBin rest k v

/-- `bins.forEach((observables, param) => observables.forEach(...))`. -/
def flattenBins (m : List (ℚ × List ℚ)) : List (ℚ × ℚ) :=
  m.flatMap (fun kv => kv.2.map (fun v => (kv.1, v)))

/-- `computeBifurcationFromData` (export-view.tsx, lines 100–152).  There is
no minimum-length guard: only `values.length === 0` returns empty, and a zero
parameter range returns `values` itself. -/
def computeBifurcationFromData (data : List Sample) (o : BifOptions) :
    List (ℚ × ℚ) :=
  let values := bifValues data o
  if values.length = 0 then []
  else if bifMaxParam data o - bifMinParam data o = 0 then values
  else
    flattenBins
      (values.foldl
        (fun m pv => insertBin m (bifBinCenter data o pv.1) (round2 pv.2)) [])

/-! ## Concrete boundary scenario for the bifurcation binners: 49 samples at
the parameter minimum and one sample exactly at the parameter maximum. -/

/-- 49 samples `{x: 0, y: 0}` followed by one sample `{x: 30, y: 7}`. -/
def cexBifData : List Sample :=
  List.replicate 49 [("x", (0 : ℚ)), ("y", (0 : ℚ))] ++ [[("x", 30), ("y", 7)]]

/-- Export-view binner options for the boundary scenario. -/
def cexBifOptions : BifOptions := ⟨"x", "y", 30, 0⟩

/-! # Theorems -/

/-- C7: the regime classifier is total over `ℚ ∪ {null}` and realises exactly
the documented threshold chain — `null ↦ Unknown(0)`, `< -0.05 ↦
StableFixedPoint(0.9)`, `[-0.05, -0.01) ↦ Stable(0.7)`, `[-0.01, 0.01) ↦
PeriodicLimitCycle(0.8)`, `[0.01, 0.1) ↦ QuasiPeriodic(0.7)`, otherwise
`Chaotic(0.85)`; in particular the boundary value `-0.05` falls in the
`Stable` branch per strict-less-than semantics. -/
theorem classifyDynamicalState_thresholds :
    classifyDynamicalState none = ⟨"Unknown", "text-gray-500", 0⟩ ∧
    (∀ x : ℚ, x < -0.05 →
      classifyDynamicalState (some x) = ⟨"Stable / Fixed Point", "text-blue-500", 0.9⟩) ∧
    (∀ x : ℚ, -0.05 ≤ x → x < -0.01 →
      classifyDynamicalState (some x) = ⟨"Stable", "text-blue-400", 0.7⟩) ∧
    (∀ x : ℚ, -0.01 ≤ x → x < 0.01 →
      classifyDynamicalState (some x) = ⟨"Periodic / Limit Cycle", "text-green-500", 0.8⟩) ∧
    (∀ x : ℚ, 0.01 ≤ x → x < 0.1 →
      classifyDynamicalState (some x) = ⟨"Quasi-Periodic", "text-yellow-500", 0.7⟩) ∧
    (∀ x : ℚ, 0.1 ≤ x →
      classifyDynamicalState (some x) = ⟨"Chaotic", "text-red-500", 0.85⟩) ∧
    classifyDynamicalState (some (-0.05)) = ⟨"Stable", "text-blue-400", 0.7⟩ := by
  refine ⟨rfl, ?_, ?_, ?_, ?_, ?_, ?_⟩
  · intro x h
    simp only [classifyDynamicalState]
    rw [if_pos h]
  · intro x h1 h2
    simp only [classifyDynamicalState]
    rw [if_neg (not_lt.mpr h1), if_pos h2]
  · intro x h1 h2
    simp only [classifyDynamicalState]
    rw [if_neg (not_lt.mpr (by linarith)), if_neg (not_lt.mpr h1), if_pos h2]
  · intro x h1 h2
    simp only [classifyDynamicalState]
    rw [if_neg (not_lt.mpr (by linarith)), if_neg (not_lt.mpr (by linarith)),
      if_neg (not_lt.mpr h1), if_pos h2]
  · intro x h
    simp only [classifyDynamicalState]
    rw [if_neg (not_lt.mpr (by linarith)), if_neg (not_lt.mpr (by linarith)),
      if_neg (not_lt.mpr (by linarith)), if_neg (not_lt.mpr h)]
  · simp only [classifyDynamicalState]
    norm_num

/-- Witness for C7: `-0.1 < -0.05` classifies as a stable fixed point. -/
theorem classifyDynamicalState_thresholds_witness :
    classifyDynamicalState (some (-0.1 : ℚ)) =
      ⟨"Stable / Fixed Point", "text-blue-500", 0.9⟩ :=
  classifyDynamicalState_thresholds.2.1 (-0.1) (by norm_num)

/-- C9: normalization returns `FACTOR * (v - min) / (max - min)` when the
channel range is strictly positive and exactly `FACTOR * 0.5` when the range
is zero; the zero-range branch guards the division (on this exact model the
function is total: no NaN/Infinity can arise for finite inputs). -/
theorem normalizeValue_spec :
    ∀ (e : Extrema) (v : ℚ) (i : ℕ),
      (0 < e.max.getD i 0 - e.min.getD i 0 →
        normalizeValue e v i =
          FACTOR * (v - e.min.getD i 0) / (e.max.getD i 0 - e.min.getD i 0)) ∧
      (e.max.getD i 0 - e.min.getD i 0 = 0 →
        normalizeValue e v i = FACTOR * 0.5) := by
  intro e v i
  constructor
  · intro h
    simp only [normalizeValue]
    rw [if_pos h]
  · intro h
    simp only [normalizeValue]
    rw [if_neg (by rw [h]; exact lt_irrefl 0)]

/-- Witness for C9: a channel with extrema `[0, 2]` normalizes `1` to `1/2`,
and a constant channel (extrema `[3, 3]`) falls back to `FACTOR * 0.5`. -/
theorem normalizeValue_spec_witness :
    normalizeValue ⟨[0], [2]⟩ 1 0 = FACTOR * (1 - 0) / (2 - 0) ∧
    normalizeValue ⟨[3], [3]⟩ 7 0 = FACTOR * 0.5 :=
  ⟨(normalizeValue_spec ⟨[0], [2]⟩ 1 0).1 (by norm_num),
   (normalizeValue_spec ⟨[3], [3]⟩ 7 0).2 (by norm_num)⟩

/-- C10: the regime-change detector is deterministic and depends only on the
final 20 elements of the history — two histories of length ≥ 20 with equal
20-element suffixes produce the same boolean. -/
theorem detectRegimeChange_suffix20 :
    ∀ h1 h2 : List ℚ, 20 ≤ h1.length → 20 ≤ h2.length →
      h1.drop (h1.length - 20) = h2.drop (h2.length - 20) →
      detectRegimeChange h1 = detectRegimeChange h2 := by
  intro h1 h2 hl1 hl2 hsuf
  have drop10 : ∀ h : List ℚ, 20 ≤ h.length →
      h.drop (h.length - 10) = (h.drop (h.length - 20)).drop 10 := by
    intro h hl
    rw [List.drop_drop]
    congr 1
    omega
  have take10 : ∀ h : List ℚ, 20 ≤ h.length →
      (h.take (h.length - 10)).drop (h.length - 20) =
        (h.drop (h.length - 20)).take 10 := by
    intro h hl
    rw [List.drop_take]
    congr 1
    omega
  have er : h1.drop (h1.length - 10) = h2.drop (h2.length - 10) := by
    rw [drop10 h1 hl1, drop10 h2 hl2, hsuf]
  have eo : (h1.take (h1.length - 10)).drop (h1.length - 20) =
      (h2.take (h2.length - 10)).drop (h2.length - 20) := by
    rw [take10 h1 hl1, take10 h2 hl2, hsuf]
  simp only [detectRegimeChange]
  rw [if_neg (by omega), if_neg (by omega), er, eo]

/-- Witness for C10: prepending an element leaves the detector's value
unchanged when the last 20 entries agree. -/
theorem detectRegimeChange_suffix20_witness :
    detectRegimeChange (List.replicate 20 (0 : ℚ)) =
      detectRegimeChange ((5 : ℚ) :: List.replicate 20 (0 : ℚ)) :=
  detectRegimeChange_suffix20 _ _ (by decide) (by decide) (by decide)

/-- `jsSum` agrees with `List.sum`. -/
theorem jsSum_eq_sum (l : List ℚ) : jsSum l = l.sum := List.sum_eq_foldl.symm

/-- Counterexample for C6: with 10 current samples and 50 baseline samples,
all with `x = 1`, the code returns `|10/50 - 50/50| / 1 = 4/5`, while the
claim's "mean over the last 50 samples" formula gives `|1 - 1| / 1 = 0` —
the source divides by the constant 50, not by the actual window size. -/
theorem calculateAnomalyScore_counterexample :
    calculateAnomalyScore (List.replicate 10 [("x", (1 : ℚ))])
        (some (List.replicate 50 [("x", (1 : ℚ))])) = 4/5 ∧
    anomalyScoreClaimMean (List.replicate 10 [("x", (1 : ℚ))])
        (some (List.replicate 50 [("x", (1 : ℚ))])) = 0 ∧
    calculateAnomalyScore (List.replicate 10 [("x", (1 : ℚ))])
        (some (List.replicate 50 [("x", (1 : ℚ))])) ≠
      anomalyScoreClaimMean (List.replicate 10 [("x", (1 : ℚ))])
        (some (List.replicate 50 [("x", (1 : ℚ))])) := by
  have hc : chan [("x", (1 : ℚ))] "x" = 1 := by decide
  have e10 : takeLast 50 (List.map (chan · "x") (List.replicate 10 [("x", (1 : ℚ))])) =
      List.replicate 10 1 := by
    rw [List.map_replicate, hc]
    norm_num [takeLast]
  have e50 : takeLast 50 (List.map (chan · "x") (List.replicate 50 [("x", (1 : ℚ))])) =
      List.replicate 50 1 := by
    rw [List.map_replicate, hc]
    norm_num [takeLast]
  have hcode : calculateAnomalyScore (List.replicate 10 [("x", (1 : ℚ))])
      (some (List.replicate 50 [("x", (1 : ℚ))])) = 4/5 := by
    simp only [calculateAnomalyScore, List.length_replicate]
    rw [if_neg (by norm_num), e10, e50, jsSum_eq_sum, jsSum_eq_sum,
      List.sum_replicate, List.sum_replicate]
    norm_num
  have hclaim : anomalyScoreClaimMean (List.replicate 10 [("x", (1 : ℚ))])
      (some (List.replicate 50 [("x", (1 : ℚ))])) = 0 := by
    simp only [anomalyScoreClaimMean, List.length_replicate]
    rw [if_neg (by norm_num), e10, e50, jsSum_eq_sum, jsSum_eq_sum,
      List.sum_replicate, List.sum_replicate]
    norm_num
  refine ⟨hcode, hclaim, ?_⟩
  rw [hcode, hclaim]
  norm_num

/-- C6 (amended): the scorer returns 0 when the baseline is null or either
sequence has fewer than 10 samples; otherwise it returns
`|s_c/50 - s_b/50| / (|s_b/50| or 1)` where `s_c`, `s_b` are the sums of
channel "x" over the last `min(50, length)` samples — the divisor is the
constant 50, a true mean only when the sequence holds ≥ 50 samples.  The
result is always ≥ 0, and `score(X, X) = 0` for every sequence `X`. -/
theorem calculateAnomalyScore_amended :
    (∀ cur : List Sample, calculateAnomalyScore cur none = 0) ∧
    (∀ cur b : List Sample, b.length < 10 ∨ cur.length < 10 →
      calculateAnomalyScore cur (some b) = 0) ∧
    (∀ cur b : List Sample, 10 ≤ b.length → 10 ≤ cur.length →
      calculateAnomalyScore cur (some b) =
        |jsSum (takeLast 50 (cur.map (chan · "x"))) / 50 -
            jsSum (takeLast 50 (b.map (chan · "x"))) / 50| /
          (if |jsSum (takeLast 50 (b.map (chan · "x"))) / 50| = 0 then 1
           else |jsSum (takeLast 50 (b.map (chan · "x"))) / 50|)) ∧
    (∀ (cur : List Sample) (b : Option (List Sample)),
      0 ≤ calculateAnomalyScore cur b) ∧
    (∀ X : List Sample, calculateAnomalyScore X (some X) = 0) := by
  refine ⟨fun cur => rfl, ?_, ?_, ?_, ?_⟩
  · intro cur b h
    simp only [calculateAnomalyScore]
    rw [if_pos h]
  · intro cur b hb hc
    simp only [calculateAnomalyScore]
    rw [if_neg (by omega)]
  · intro cur b
    match b with
    | none => exact le_refl 0
    | some b =>
      simp only [calculateAnomalyScore]
      split_ifs with h1 h2
      · exact le_refl 0
      · exact div_nonneg (abs_nonneg _) (by norm_num)
      · exact div_nonneg (abs_nonneg _) (abs_nonneg _)
  · intro X
    simp only [calculateAnomalyScore]
    split_ifs with h1 h2
    · rfl
    · simp
    · simp

/-- Witness for C6 (amended): an empty baseline scores 0, and a sequence
scored against itself scores 0. -/
theorem calculateAnomalyScore_amended_witness :
    calculateAnomalyScore [[("x", (3 : ℚ))]] (some []) = 0 ∧
    calculateAnomalyScore (List.replicate 12 [("x", (2 : ℚ))])
      (some (List.replicate 12 [("x", (2 : ℚ))])) = 0 :=
  ⟨calculateAnomalyScore_amended.2.1 _ _ (Or.inl (by decide)),
   calculateAnomalyScore_amended.2.2.2.2 _⟩

/-- A fold accumulating `(sum, count)` over an `if`-guarded step computes the
sum and length of the corresponding `filterMap`. -/
theorem foldl_sum_count (g : ℕ → ℚ) (p : ℕ → Prop) [DecidablePred p] :
    ∀ (l : List ℕ) (s : ℚ) (c : ℕ),
      l.foldl (fun sc i => if p i then (sc.1 + g i, sc.2 + 1) else sc) (s, c) =
        (s + (l.filterMap (fun i => if p i then some (g i) else none)).sum,
         c + (l.filterMap (fun i => if p i then some (g i) else none)).length) := by
  intro l
  induction l with
  | nil => intro s c; simp
  | cons a t ih =>
    intro s c
    simp only [List.foldl_cons, List.filterMap_cons]
    by_cases h : p a
    · simp only [if_pos h, ih, List.sum_cons, List.length_cons, Prod.mk.injEq]
      constructor
      · ring
      · omega
    · simp only [if_neg h, ih]

/-- Looking up the stored channel returns the stored value. -/
theorem chan_single (k : String) (c : ℚ) : chan [(k, c)] k = c := by
  simp [chan, List.lookup]

/-- C1: the windowed Lyapunov estimator returns `null` below 100 samples;
otherwise, over indices `i ∈ [10, length - 10)`, each delta
`|value[i+1] - value[i]|` contributes `log delta` and bumps the counter
exactly when `delta > 1e-10`, and the result is `sum / counter` when the
counter is positive and `null` otherwise; in particular every constant
sequence yields `null`. -/
theorem calculateLyapunovExponent_spec :
    ∀ (log : ℚ → ℚ) (data : List Sample) (channel : String),
      (data.length < 100 → calculateLyapunovExponent log data channel = none) ∧
      (100 ≤ data.length →
        calculateLyapunovExponent log data channel =
          if 0 < (lyapunovContribs log data channel).length then
            some ((lyapunovContribs log data channel).sum /
              ((lyapunovContribs log data channel).length : ℚ))
          else none) ∧
      (∀ (c : ℚ) (n : ℕ),
        calculateLyapunovExponent log (List.replicate n [(channel, c)]) channel = none) := by
  intro log data channel
  have main : ∀ d : List Sample, 100 ≤ d.length →
      calculateLyapunovExponent log d channel =
        if 0 < (lyapunovContribs log d channel).length then
          some ((lyapunovContribs log d channel).sum /
            ((lyapunovContribs log d channel).length : ℚ))
        else none := by
    intro d hd
    simp only [calculateLyapunovExponent, lyapunovContribs]
    rw [if_neg (by omega)]
    rw [foldl_sum_count (fun i =>
        log |(d.map (chan · channel)).getD (i + 1) 0 - (d.map (chan · channel)).getD i 0|)
      (fun i =>
        |(d.map (chan · channel)).getD (i + 1) 0 - (d.map (chan · channel)).getD i 0| > 1e-10)]
    simp only [zero_add]
  refine ⟨?_, main data, ?_⟩
  · intro h
    simp only [calculateLyapunovExponent]
    rw [if_pos h]
  · intro c n
    by_cases hn : n < 100
    · simp only [calculateLyapunovExponent, List.length_replicate]
      rw [if_pos hn]
    · rw [main _ (by simpa using (by omega : 100 ≤ n))]
      have hnil : lyapunovContribs log (List.replicate n [(channel, c)]) channel = [] := by
        simp only [lyapunovContribs, List.map_replicate, chan_single]
        rw [List.filterMap_eq_nil_iff]
        intro i hi
        rw [List.mem_range'_1] at hi
        have h1 : i < n := by
          have := hi.2
          simp only [List.length_replicate] at this ⊢
          omega
        have h2 : i + 1 < n := by
          have := hi.2
          simp only [List.length_replicate] at this ⊢
          omega
        rw [List.getD_eq_getElem?_getD, List.getElem?_replicate, if_pos h2,
          List.getD_eq_getElem?_getD, List.getElem?_replicate, if_pos h1]
        norm_num
      rw [hnil]
      norm_num

/-- Witness for C1: 99 constant samples are insufficient data. -/
theorem calculateLyapunovExponent_spec_witness :
    calculateLyapunovExponent id (List.replicate 99 [("x", (0 : ℚ))]) "x" = none :=
  (calculateLyapunovExponent_spec id _ "x").1 (by simp)

/-- C8: for every input, method, and `segmentsPerEdge ≥ 1`, the resampler's
two outputs have equal length and every `indexMap` entry is a valid index
into the original sequence; for method `none` or input length ≤ 1 the output
is the input with the identity index map. -/
theorem interpolateTrajectory_invariants :
    ∀ (curveAt : List Point3 → ℚ → Point3) (pts : List Point3)
      (method : InterpMethod) (k : ℕ), 1 ≤ k →
      (interpolateTrajectory curveAt pts method k).1.length =
          (interpolateTrajectory curveAt pts method k).2.length ∧
      (∀ j ∈ (interpolateTrajectory curveAt pts method k).2, j < pts.length) ∧
      ((method = InterpMethod.none ∨ pts.length ≤ 1) →
        interpolateTrajectory curveAt pts method k =
          (pts, List.range pts.length)) := by
  intro curveAt pts method k _
  by_cases hg : pts.length ≤ 1 ∨ method = InterpMethod.none
  · have he : interpolateTrajectory curveAt pts method k =
        (pts, List.range pts.length) := by
      simp only [interpolateTrajectory]
      rw [if_pos hg]
    rw [he]
    refine ⟨by simp, ?_, fun _ => rfl⟩
    intro j hj
    simpa using hj
  · have hg' : ¬ (method = InterpMethod.none ∨ pts.length ≤ 1) := by
      intro h
      exact hg (h.elim Or.inr Or.inl)
    have h2 : 1 < pts.length := by
      rcases Nat.lt_or_ge 1 pts.length with h | h
      · exact h
      · exact absurd (Or.inl h) hg
    cases method with
    | none => exact absurd (Or.inr rfl) hg
    | linear =>
      simp only [interpolateTrajectory]
      rw [if_neg hg, if_true]
      refine ⟨?_, ?_, fun h => absurd h hg'⟩
      · simp [List.length_flatMap, Function.comp_def]
      · intro j hj
        simp only [List.mem_append, List.mem_flatMap, List.mem_replicate,
          List.mem_range, List.mem_singleton] at hj
        rcases hj with ⟨i, hi, _, rfl⟩ | rfl
        · omega
        · omega
    | catmullRom =>
      simp only [interpolateTrajectory]
      rw [if_neg hg,
        if_neg (by decide : ¬ (InterpMethod.catmullRom = InterpMethod.linear))]
      refine ⟨by simp, ?_, fun h => absurd h hg'⟩
      intro j hj
      simp only [List.mem_map, List.mem_range] at hj
      obtain ⟨i, _, rfl⟩ := hj
      omega

/-- Witness for C8: two points, linear interpolation, two segments per edge. -/
theorem interpolateTrajectory_invariants_witness :
    (interpolateTrajectory (fun _ _ => ⟨0, 0, 0⟩) [⟨0, 0, 0⟩, ⟨1, 0, 0⟩]
        InterpMethod.linear 2).1.length =
      (interpolateTrajectory (fun _ _ => ⟨0, 0, 0⟩) [⟨0, 0, 0⟩, ⟨1, 0, 0⟩]
        InterpMethod.linear 2).2.length :=
  (interpolateTrajectory_invariants (fun _ _ => ⟨0, 0, 0⟩) _
    InterpMethod.linear 2 (by norm_num)).1

/-- Unfolding of the `poincareGo` loop body at a processed index. -/
theorem poincareGo_eq_emits (o : PoincareOptions) (i : ℕ) (lastValue : ℚ)
    (d : Sample) (rest : List Sample) (h : ¬ i < o.transient) :
    poincareGo o i lastValue (d :: rest) =
      if poincareEmits o lastValue (chan d o.sect) then
        mkCrossingPoint d i :: poincareGo o (i + 1) (chan d o.sect) rest
      else poincareGo o (i + 1) (chan d o.sect) rest := by
  rw [poincareGo, if_neg h]
  rfl

/-- Characterization of the `poincareGo` loop: processing samples at absolute
indices `i, i + 1, …` with incoming `lastValue` emits, per index `j`, exactly
what the declarative crossing test emits, where the comparison value is the
incoming `lastValue` at the first processed index `max i transient` and the
previous sample's section value afterwards. -/
theorem poincareGo_spec (o : PoincareOptions) :
    ∀ (rest : List Sample) (i : ℕ) (last : ℚ),
      poincareGo o i last rest =
        (List.range' i rest.length).filterMap (fun j =>
          if j < o.transient then none
          else if poincareEmits o
              (if j = max i o.transient then last
               else chan (rest.getD (j - 1 - i) []) o.sect)
              (chan (rest.getD (j - i) []) o.sect) then
            some (mkCrossingPoint (rest.getD (j - i) []) j)
          else none) := by
  intro rest
  induction rest with
  | nil => intro i last; simp [poincareGo]
  | cons d rest ih =>
    intro i last
    rw [List.length_cons, List.range'_succ, List.filterMap_cons]
    by_cases hi : i < o.transient
    · rw [if_pos hi]
      rw [poincareGo, if_pos hi, ih]
      apply List.filterMap_congr
      intro j hj
      rw [List.mem_range'_1] at hj
      by_cases hjt : j < o.transient
      · rw [if_pos hjt, if_pos hjt]
      · rw [if_neg hjt, if_neg hjt]
        have h1 : j - i = (j - (i + 1)) + 1 := by omega
        have hmx : max (i + 1) o.transient = max i o.transient := by omega
        rw [h1, List.getD_cons_succ, hmx]
        by_cases h4 : j = max i o.transient
        · rw [if_pos h4, if_pos h4]
        · have h3 : j - 1 - i = (j - 1 - (i + 1)) + 1 := by omega
          rw [if_neg h4, if_neg h4, h3, List.getD_cons_succ]
    · rw [if_neg hi]
      have hmax : max i o.transient = i := by omega
      rw [poincareGo_eq_emits o i last d rest hi, ih]
      have hhead : (if i = max i o.transient then last
            else chan ((d :: rest).getD (i - 1 - i) []) o.sect) = last := by
        rw [if_pos hmax.symm]
      have htail : ∀ j ∈ List.range' (i + 1) rest.length,
          (fun j =>
            if j < o.transient then none
            else if poincareEmits o
                (if j = max (i + 1) o.transient then chan d o.sect
                 else chan (rest.getD (j - 1 - (i + 1)) []) o.sect)
                (chan (rest.getD (j - (i + 1)) []) o.sect) then
              some (mkCrossingPoint (rest.getD (j - (i + 1)) []) j)
            else none) j =
          (fun j =>
            if j < o.transient then none
            else if poincareEmits o
                (if j = max i o.transient then last
                 else chan ((d :: rest).getD (j - 1 - i) []) o.sect)
                (chan ((d :: rest).getD (j - i) []) o.sect) then
              some (mkCrossingPoint ((d :: rest).getD (j - i) []) j)
            else none) j := by
        intro j hj
        rw [List.mem_range'_1] at hj
        simp only
        by_cases hjt : j < o.transient
        · rw [if_pos hjt, if_pos hjt]
        · rw [if_neg hjt, if_neg hjt]
          have h1 : j - i = (j - (i + 1)) + 1 := by omega
          rw [h1, List.getD_cons_succ]
          have hne : ¬ j = max i o.transient := by omega
          rw [if_neg hne]
          by_cases h5 : j = max (i + 1) o.transient
          · rw [if_pos h5]
            have : j - 1 - i = 0 := by omega
            rw [this, List.getD_cons_zero]
          · rw [if_neg h5]
            have h6 : j - 1 - i = (j - 1 - (i + 1)) + 1 := by omega
            rw [h6, List.getD_cons_succ]
      rw [List.filterMap_congr htail]
      by_cases hemit : poincareEmits o last (chan d o.sect)
      · rw [if_pos hemit]
        have hfi : (if poincareEmits o
                (if i = max i o.transient then last
                 else chan ((d :: rest).getD (i - 1 - i) []) o.sect)
                (chan ((d :: rest).getD (i - i) []) o.sect) then
              some (mkCrossingPoint ((d :: rest).getD (i - i) []) i)
            else none) = some (mkCrossingPoint d i) := by
          rw [hhead, Nat.sub_self, List.getD_cons_zero, if_pos hemit]
        rw [hfi]
      · rw [if_neg hemit]
        have hfi : (if poincareEmits o
                (if i = max i o.transient then last
                 else chan ((d :: rest).getD (i - 1 - i) []) o.sect)
                (chan ((d :: rest).getD (i - i) []) o.sect) then
              some (mkCrossingPoint ((d :: rest).getD (i - i) []) i)
            else none) = none := by
          rw [hhead, Nat.sub_self, List.getD_cons_zero, if_neg hemit]
        rw [hfi]

/-- The extractor equals its declarative crossing specification. -/
theorem computePoincare_eq_spec (data : List Sample) (o : PoincareOptions) :
    computePoincareFromData data o = poincareCrossingSpec data o := by
  match data with
  | [] => rfl
  | [d] => rfl
  | d0 :: d1 :: rest =>
    have hlen : ¬ (d0 :: d1 :: rest).length < 2 := by simp
    simp only [computePoincareFromData, poincareCrossingSpec]
    rw [if_neg hlen, if_neg hlen]
    rw [poincareGo_spec]
    have hlen2 : (d1 :: rest).length = (d0 :: d1 :: rest).length - 1 := by simp
    rw [hlen2]
    apply List.filterMap_congr
    intro j hj
    rw [List.mem_range'_1] at hj
    obtain ⟨m, rfl⟩ : ∃ m, j = m + 1 := ⟨j - 1, by omega⟩
    by_cases hjt : m + 1 < o.transient
    · rw [if_pos hjt, if_pos hjt]
    · rw [if_neg hjt, if_neg hjt]
      simp only [List.getD_cons_succ, List.getD_cons_zero, Nat.add_sub_cancel]
      by_cases h4 : m + 1 = max 1 o.transient
      · rw [if_pos h4, if_pos h4]
      · rw [if_neg h4, if_neg h4]
        obtain ⟨p, rfl⟩ : ∃ p, m = p + 1 := ⟨m - 1, by omega⟩
        simp only [Nat.add_sub_cancel, List.getD_cons_succ]

/-- A `filterMap` over a strictly increasing index list whose emissions carry
their index is pairwise increasing on `index`. -/
theorem pairwise_index_filterMap (f : ℕ → Option PoincarePoint)
    (hidx : ∀ j p, f j = some p → p.index = j) :
    ∀ l : List ℕ, l.Pairwise (· < ·) →
      (l.filterMap f).Pairwise (fun p q => p.index < q.index) := by
  intro l
  induction l with
  | nil => intro; simp
  | cons a t ih =>
    intro hp
    rw [List.pairwise_cons] at hp
    rw [List.filterMap_cons]
    cases hfa : f a with
    | none => exact ih hp.2
    | some p =>
      refine List.Pairwise.cons ?_ (ih hp.2)
      intro q hq
      rw [List.mem_filterMap] at hq
      obtain ⟨b, hb, hfb⟩ := hq
      rw [hidx a p hfa, hidx b q hfb]
      exact hp.1 b hb

/-- C3: the Poincaré extractor detects a crossing exactly per the dual
inclusive sign test, classifies it positive exactly when
`currentValue ≥ sectionValue`, emits the full-state sample with its original
index exactly when the requested direction is `both` or matches the
classification (all captured by equality with `poincareCrossingSpec`);
emitted points appear in trajectory order, and inputs with fewer than two
samples produce the empty, non-error output. -/
theorem computePoincareFromData_crossings :
    ∀ (data : List Sample) (o : PoincareOptions),
      computePoincareFromData data o = poincareCrossingSpec data o ∧
      (computePoincareFromData data o).Pairwise (fun p q => p.index < q.index) ∧
      (data.length < 2 → computePoincareFromData data o = []) := by
  intro data o
  refine ⟨computePoincare_eq_spec data o, ?_, ?_⟩
  · rw [computePoincare_eq_spec]
    simp only [poincareCrossingSpec]
    split_ifs
    · exact List.Pairwise.nil
    · refine pairwise_index_filterMap _ ?_ _ (List.pairwise_lt_range' _ _)
      intro j p hp
      split_ifs at hp <;> cases hp <;> rfl
  · intro h
    simp only [computePoincareFromData]
    rw [if_pos h]

/-- Witness for C3: a single-sample trajectory yields the empty output. -/
theorem computePoincareFromData_crossings_witness :
    computePoincareFromData [[("x", (1 : ℚ))]]
      ⟨"x", 0, CrossingDirection.both, 0⟩ = [] :=
  (computePoincareFromData_crossings [[("x", (1 : ℚ))]]
    ⟨"x", 0, CrossingDirection.both, 0⟩).2.2 (by simp)

/-- Counterexample for C2: with section values `[0, 5, 0]`, section plane 3
and transient 2, the code emits nothing (its `continue` skips the
`lastValue = currentValue` update, so at `i = 2` it compares `0 → 0` against
the plane), while the claim's always-update variant sees the `5 → 0` downward
crossing at `i = 2` and emits it. -/
theorem computePoincare_transient_counterexample :
    computePoincareFromData [[("x", (0 : ℚ))], [("x", 5)], [("x", 0)]]
        ⟨"x", 3, CrossingDirection.both, 2⟩ = [] ∧
    computePoincareAlwaysUpdate [[("x", (0 : ℚ))], [("x", 5)], [("x", 0)]]
        ⟨"x", 3, CrossingDirection.both, 2⟩ = [⟨0, 0, 0, 2, 2⟩] ∧
    computePoincareFromData [[("x", (0 : ℚ))], [("x", 5)], [("x", 0)]]
        ⟨"x", 3, CrossingDirection.both, 2⟩ ≠
      computePoincareAlwaysUpdate [[("x", (0 : ℚ))], [("x", 5)], [("x", 0)]]
        ⟨"x", 3, CrossingDirection.both, 2⟩ := by
  refine ⟨?_, ?_, ?_⟩ <;> decide

/-- C2 (amended): the extractor skips both emission and the `lastValue`
update for `1 ≤ i < transient`, so at the first processed index the crossing
test compares against sample 0's section value; consequently the samples at
indices `1, …, transient - 1` have no influence at all on the output. -/
theorem computePoincare_skipped_range_irrelevant :
    ∀ (d1 d2 : List Sample) (o : PoincareOptions),
      d1.length = d2.length →
      d1.getD 0 [] = d2.getD 0 [] →
      (∀ i, o.transient ≤ i → i < d1.length → d1.getD i [] = d2.getD i []) →
      computePoincareFromData d1 o = computePoincareFromData d2 o := by
  intro d1 d2 o hlen hhead htail
  rw [computePoincare_eq_spec, computePoincare_eq_spec]
  simp only [poincareCrossingSpec]
  rw [← hlen]
  by_cases h2 : d1.length < 2
  · rw [if_pos h2, if_pos h2]
  · rw [if_neg h2, if_neg h2]
    apply List.filterMap_congr
    intro j hj
    rw [List.mem_range'_1] at hj
    by_cases hjt : j < o.transient
    · rw [if_pos hjt, if_pos hjt]
    · rw [if_neg hjt, if_neg hjt]
      have hcur : d1.getD j [] = d2.getD j [] := htail j (by omega) (by omega)
      by_cases h4 : j = max 1 o.transient
      · rw [if_pos h4, if_pos h4, hhead, hcur]
      · have hlast : d1.getD (j - 1) [] = d2.getD (j - 1) [] :=
          htail (j - 1) (by omega) (by omega)
        rw [if_neg h4, if_neg h4, hlast, hcur]

/-- Witness for C2 (amended): changing only the sample inside the skipped
transient window leaves the output unchanged. -/
theorem computePoincare_skipped_range_irrelevant_witness :
    computePoincareFromData [[("x", (0 : ℚ))], [("x", 5)], [("x", 4)]]
        ⟨"x", 3, CrossingDirection.both, 2⟩ =
      computePoincareFromData [[("x", (0 : ℚ))], [("x", -9)], [("x", 4)]]
        ⟨"x", 3, CrossingDirection.both, 2⟩ := by
  apply computePoincare_skipped_range_irrelevant
  · rfl
  · rfl
  · intro i h1 h2
    have h1' : 2 ≤ i := h1
    have : i = 2 := by
      simp only [List.length_cons, List.length_nil] at h2
      omega
    subst this
    rfl

/-- A min-fold is bounded by its initial value. -/
theorem foldl_min_le_init : ∀ (xs : List ℚ) (a : ℚ), xs.foldl min a ≤ a := by
  intro xs
  induction xs with
  | nil => intro a; simp
  | cons b t ih =>
    intro a
    calc t.foldl min (min a b) ≤ min a b := ih (min a b)
      _ ≤ a := min_le_left a b

/-- A min-fold is bounded by every element. -/
theorem foldl_min_le_mem : ∀ (xs : List ℚ) (a x : ℚ), x ∈ xs → xs.foldl min a ≤ x := by
  intro xs
  induction xs with
  | nil => intro a x hx; cases hx
  | cons b t ih =>
    intro a x hx
    rcases List.mem_cons.mp hx with rfl | hx
    · calc t.foldl min (min a x) ≤ min a x := foldl_min_le_init t (min a x)
        _ ≤ x := min_le_right a x
    · exact ih (min a b) x hx

/-- A max-fold dominates its initial value. -/
theorem init_le_foldl_max : ∀ (xs : List ℚ) (a : ℚ), a ≤ xs.foldl max a := by
  intro xs
  induction xs with
  | nil => intro a; simp
  | cons b t ih =>
    intro a
    calc a ≤ max a b := le_max_left a b
      _ ≤ t.foldl max (max a b) := ih (max a b)

/-- A max-fold dominates every element. -/
theorem mem_le_foldl_max : ∀ (xs : List ℚ) (a x : ℚ), x ∈ xs → x ≤ xs.foldl max a := by
  intro xs
  induction xs with
  | nil => intro a x hx; cases hx
  | cons b t ih =>
    intro a x hx
    rcases List.mem_cons.mp hx with rfl | hx
    · calc x ≤ max a x := le_max_right a x
        _ ≤ t.foldl max (max a x) := init_le_foldl_max t (max a x)
    · exact ih (max a b) x hx

/-- `Math.min` of a non-empty list is at most `Math.max` of the same list. -/
theorem listMin_le_listMax : ∀ (l : List ℚ), l ≠ [] → listMin l ≤ listMax l := by
  intro l hl
  match l with
  | [] => exact absurd rfl hl
  | x :: xs =>
    calc listMin (x :: xs) ≤ x := foldl_min_le_init xs x
      _ ≤ listMax (x :: xs) := init_le_foldl_max xs x

/-- De-duplication keeps only elements of the original list. -/
theorem mem_jsSetList : ∀ (l : List ℚ) (x : ℚ), x ∈ jsSetList l → x ∈ l := by
  have key : ∀ (l acc : List ℚ) (x : ℚ),
      x ∈ l.foldl (fun acc v => if v ∈ acc then acc else acc ++ [v]) acc →
        x ∈ acc ∨ x ∈ l := by
    intro l
    induction l with
    | nil => intro acc x hx; exact Or.inl hx
    | cons b t ih =>
      intro acc x hx
      rcases ih _ x hx with h | h
      · change x ∈ (if b ∈ acc then acc else acc ++ [b]) at h
        by_cases hb : b ∈ acc
        · rw [if_pos hb] at h
          exact Or.inl h
        · rw [if_neg hb] at h
          rcases List.mem_append.mp h with h | h
          · exact Or.inl h
          · exact Or.inr (List.mem_cons.mpr (Or.inl (List.mem_singleton.mp h)))
      · exact Or.inr (List.mem_cons.mpr (Or.inr h))
  intro l x hx
  rcases key l [] x hx with h | h
  · cases h
  · exact h

/-- Inserting a pair puts it into the flattened bins. -/
theorem mem_flattenBins_insertBin : ∀ (m : List (ℚ × List ℚ)) (k v : ℚ),
    (k, v) ∈ flattenBins (insertBin m k v) := by
  intro m
  induction m with
  | nil => intro k v; simp [insertBin, flattenBins]
  | cons kv rest ih =>
    intro k v
    obtain ⟨k', vs⟩ := kv
    rw [insertBin]
    by_cases h : k' = k
    · rw [if_pos h]
      subst h
      by_cases hv : v ∈ vs
      · rw [if_pos hv]
        simp only [flattenBins, List.flatMap_cons, List.mem_append]
        exact Or.inl (List.mem_map.mpr ⟨v, hv, rfl⟩)
      · rw [if_neg hv]
        simp only [flattenBins, List.flatMap_cons, List.mem_append]
        exact Or.inl (List.mem_map.mpr ⟨v, by simp, rfl⟩)
    · rw [if_neg h]
      simp only [flattenBins, List.flatMap_cons, List.mem_append]
      exact Or.inr (ih k v)

/-- Insertion preserves existing flattened-bin members. -/
theorem mem_flattenBins_insertBin_of_mem :
    ∀ (m : List (ℚ × List ℚ)) (k v k' v' : ℚ),
      (k', v') ∈ flattenBins m → (k', v') ∈ flattenBins (insertBin m k v) := by
  intro m
  induction m with
  | nil => intro k v k' v' h; cases h
  | cons kv rest ih =>
    intro k v k' v' h
    obtain ⟨k₀, vs⟩ := kv
    simp only [flattenBins, List.flatMap_cons, List.mem_append] at h
    rw [insertBin]
    by_cases hk : k₀ = k
    · rw [if_pos hk]
      simp only [flattenBins, List.flatMap_cons, List.mem_append]
      rcases h with h | h
      · refine Or.inl ?_
        obtain ⟨w, hw, hweq⟩ := List.mem_map.mp h
        by_cases hv : v ∈ vs
        · rw [if_pos hv]
          exact List.mem_map.mpr ⟨w, hw, hweq⟩
        · rw [if_neg hv]
          exact List.mem_map.mpr ⟨w, by simp [hw], hweq⟩
      · exact Or.inr h
    · rw [if_neg hk]
      simp only [flattenBins, List.flatMap_cons, List.mem_append]
      rcases h with h | h
      · exact Or.inl h
      · exact Or.inr (ih k v k' v' h)

/-- Folding more insertions preserves flattened-bin members. -/
theorem mem_flattenBins_foldl_of_mem (f g : ℚ × ℚ → ℚ) :
    ∀ (l : List (ℚ × ℚ)) (m : List (ℚ × List ℚ)) (k' v' : ℚ),
      (k', v') ∈ flattenBins m →
      (k', v') ∈ flattenBins (l.foldl (fun acc q => insertBin acc (f q) (g q)) m) := by
  intro l
  induction l with
  | nil => intro m k' v' h; exact h
  | cons q t ih =>
    intro m k' v' h
    exact ih _ k' v' (mem_flattenBins_insertBin_of_mem m (f q) (g q) k' v' h)

/-- Every processed pair lands in the flattened bins of the fold. -/
theorem mem_flattenBins_foldl (f g : ℚ × ℚ → ℚ) :
    ∀ (l : List (ℚ × ℚ)) (m : List (ℚ × List ℚ)) (pv : ℚ × ℚ), pv ∈ l →
      (f pv, g pv) ∈ flattenBins (l.foldl (fun acc q => insertBin acc (f q) (g q)) m) := by
  intro l
  induction l with
  | nil => intro m pv h; cases h
  | cons q t ih =>
    intro m pv h
    rcases List.mem_cons.mp h with rfl | h
    · exact mem_flattenBins_foldl_of_mem f g t _ (f pv) (g pv)
        (mem_flattenBins_insertBin m (f pv) (g pv))
    · exact ih _ pv h

/-- A min-fold over copies of the initial value is the initial value. -/
theorem foldl_min_replicate : ∀ (n : ℕ) (a : ℚ), (List.replicate n a).foldl min a = a := by
  intro n
  induction n with
  | zero => intro a; rfl
  | succ m ih =>
    intro a
    rw [List.replicate_succ, List.foldl_cons, min_self]
    exact ih a

/-- A max-fold over copies of the initial value is the initial value. -/
theorem foldl_max_replicate : ∀ (n : ℕ) (a : ℚ), (List.replicate n a).foldl max a = a := by
  intro n
  induction n with
  | zero => intro a; rfl
  | succ m ih =>
    intro a
    rw [List.replicate_succ, List.foldl_cons, max_self]
    exact ih a

/-- `Math.min` of `n + 1` copies of `a` followed by `b`. -/
theorem listMin_replicate_append (n : ℕ) (a b : ℚ) :
    listMin (List.replicate (n + 1) a ++ [b]) = min a b := by
  rw [List.replicate_succ, List.cons_append, listMin, List.foldl_append,
    foldl_min_replicate]
  rfl

/-- `Math.max` of `n + 1` copies of `a` followed by `b`. -/
theorem listMax_replicate_append (n : ℕ) (a b : ℚ) :
    listMax (List.replicate (n + 1) a ++ [b]) = max a b := by
  rw [List.replicate_succ, List.cons_append, listMax, List.foldl_append,
    foldl_max_replicate]
  rfl

/-- Parameter channel of the boundary scenario. -/
theorem cex_params : cexBifData.map (chan · "x") = List.replicate 49 0 ++ [30] := by
  simp only [cexBifData, List.map_append, List.map_replicate, List.map_cons,
    List.map_nil]
  rw [show chan [("x", (0 : ℚ)), ("y", (0 : ℚ))] "x" = 0 from by decide,
    show chan [("x", (30 : ℚ)), ("y", (7 : ℚ))] "x" = 30 from by decide]

/-- Observable channel of the boundary scenario. -/
theorem cex_obs : cexBifData.map (chan · "y") = List.replicate 49 0 ++ [7] := by
  simp only [cexBifData, List.map_append, List.map_replicate, List.map_cons,
    List.map_nil]
  rw [show chan [("x", (0 : ℚ)), ("y", (0 : ℚ))] "y" = 0 from by decide,
    show chan [("x", (30 : ℚ)), ("y", (7 : ℚ))] "y" = 7 from by decide]

/-- Minimum parameter of the boundary scenario. -/
theorem cex_min : listMin (List.replicate 49 (0 : ℚ) ++ [30]) = 0 := by
  rw [show (49 : ℕ) = 48 + 1 from rfl, listMin_replicate_append]
  norm_num

/-- Maximum parameter of the boundary scenario. -/
theorem cex_max : listMax (List.replicate 49 (0 : ℚ) ++ [30]) = 30 := by
  rw [show (49 : ℕ) = 48 + 1 from rfl, listMax_replicate_append]
  norm_num

/-- The export-view value pairs of the boundary scenario. -/
theorem cex_bifValues :
    bifValues cexBifData cexBifOptions =
      List.replicate 49 ((0 : ℚ), (0 : ℚ)) ++ [(30, 7)] := by
  simp only [bifValues, cexBifOptions, cexBifData, List.drop_zero,
    List.map_append, List.map_replicate, List.map_cons, List.map_nil]
  rw [show chan [("x", (0 : ℚ)), ("y", (0 : ℚ))] "x" = 0 from by decide,
    show chan [("x", (0 : ℚ)), ("y", (0 : ℚ))] "y" = 0 from by decide,
    show chan [("x", (30 : ℚ)), ("y", (7 : ℚ))] "x" = 30 from by decide,
    show chan [("x", (30 : ℚ)), ("y", (7 : ℚ))] "y" = 7 from by decide]

/-- Export-view minimum parameter of the boundary scenario. -/
theorem cex_bifMin : bifMinParam cexBifData cexBifOptions = 0 := by
  rw [bifMinParam, cex_bifValues]
  simp only [List.map_append, List.map_replicate, List.map_cons, List.map_nil]
  exact cex_min

/-- Export-view maximum parameter of the boundary scenario. -/
theorem cex_bifMax : bifMaxParam cexBifData cexBifOptions = 30 := by
  rw [bifMaxParam, cex_bifValues]
  simp only [List.map_append, List.map_replicate, List.map_cons, List.map_nil]
  exact cex_max

/-- Counterexample for C5: a single-sample series — far below 50 — produces a
non-empty output from the export-view binner (range-0 passthrough), so the
"length < 50 returns empty" contract does not hold for that variant. -/
theorem computeBifurcationFromData_length_counterexample :
    computeBifurcationFromData [[("a", (1 : ℚ)), ("b", 2)]] ⟨"a", "b", 30, 0⟩ =
      [(1, 2)] ∧
    computeBifurcationFromData [[("a", (1 : ℚ)), ("b", 2)]] ⟨"a", "b", 30, 0⟩ ≠
      [] := by
  have hv : bifValues [[("a", (1 : ℚ)), ("b", 2)]] ⟨"a", "b", 30, 0⟩ = [(1, 2)] := by
    decide
  have hmin : bifMinParam [[("a", (1 : ℚ)), ("b", 2)]] ⟨"a", "b", 30, 0⟩ = 1 := by
    rw [bifMinParam, hv]
    rfl
  have hmax : bifMaxParam [[("a", (1 : ℚ)), ("b", 2)]] ⟨"a", "b", 30, 0⟩ = 1 := by
    rw [bifMaxParam, hv]
    rfl
  have h : computeBifurcationFromData [[("a", (1 : ℚ)), ("b", 2)]]
      ⟨"a", "b", 30, 0⟩ = [(1, 2)] := by
    simp only [computeBifurcationFromData]
    rw [hv, hmin, hmax]
    norm_num
  exact ⟨h, by rw [h]; simp⟩

/-- C5 (amended): the playground binner returns the empty sequence for every
input of length < 50; the export-view binner instead returns the empty
sequence exactly when the post-transient series is empty — it has no
minimum-length guard. -/
theorem bifurcation_empty_guards :
    (∀ data : List Sample, data.length < 50 → computeBifurcationData data = []) ∧
    (∀ (data : List Sample) (o : BifOptions),
      computeBifurcationFromData data o = [] ↔ data.drop o.transient = []) := by
  constructor
  · intro data h
    simp only [computeBifurcationData]
    rw [if_pos h]
  · intro data o
    constructor
    · intro h
      by_contra hne
      have hval : bifValues data o ≠ [] := by
        simp only [bifValues]
        exact fun hm => hne (List.map_eq_nil_iff.mp hm)
      obtain ⟨pv, rest, hpv⟩ : ∃ pv rest, bifValues data o = pv :: rest := by
        match hv : bifValues data o with
        | [] => exact absurd hv hval
        | pv :: rest => exact ⟨pv, rest, rfl⟩
      have hmem : pv ∈ bifValues data o := by
        rw [hpv]
        exact List.mem_cons_self _ _
      simp only [computeBifurcationFromData] at h
      rw [if_neg (by rw [hpv]; simp)] at h
      by_cases hr : bifMaxParam data o - bifMinParam data o = 0
      · rw [if_pos hr] at h
        exact hval h
      · rw [if_neg hr] at h
        have hin := mem_flattenBins_foldl (fun q => bifBinCenter data o q.1)
          (fun q => round2 q.2) (bifValues data o) [] pv hmem
        rw [h] at hin
        cases hin
    · intro h
      simp only [computeBifurcationFromData]
      rw [if_pos (by simp [bifValues, h])]

/-- Witness for C5 (amended): a one-sample input to the playground binner
yields empty; an empty input to the export binner yields empty. -/
theorem bifurcation_empty_guards_witness :
    computeBifurcationData [[("x", (1 : ℚ))]] = [] ∧
    computeBifurcationFromData [] ⟨"a", "b", 30, 0⟩ = [] :=
  ⟨bifurcation_empty_guards.1 _ (by simp),
   (bifurcation_empty_guards.2 [] ⟨"a", "b", 30, 0⟩).mpr (by simp)⟩

/-- C4 (amended): for series of length ≥ 50 with non-zero parameter range,
the playground binner emits only points whose `x` is the center
`minParam + (i + 1/2) * binWidth` of one of its 30 bins, lying within
`[minParam, maxParam]` (but its strict `p < binMax` test drops points with
`param = maxParam`); the export-view binner assigns every input point —
including the one at `maxParam` — to the bin with center
`minParam + (⌊(p - minParam)/binWidth⌋ + 1/2) * binWidth` and emits its
rounded observable there (but that center exceeds `maxParam` for the
`param = maxParam` point, since there is no bin-index clamp). -/
theorem bifurcation_binning_amended :
    (∀ data : List Sample, 50 ≤ data.length →
      listMin (data.map (chan · "x")) ≠ listMax (data.map (chan · "x")) →
      ∀ pt ∈ computeBifurcationData data,
        (∃ i : ℕ, i < 30 ∧
          pt.1 = listMin (data.map (chan · "x")) +
            ((i : ℚ) + 1/2) *
              ((listMax (data.map (chan · "x")) -
                listMin (data.map (chan · "x"))) / 30)) ∧
        listMin (data.map (chan · "x")) ≤ pt.1 ∧
        pt.1 ≤ listMax (data.map (chan · "x"))) ∧
    (∀ (data : List Sample) (o : BifOptions), 0 < o.numBins →
      50 ≤ (bifValues data o).length →
      bifMinParam data o ≠ bifMaxParam data o →
      ∀ pv ∈ bifValues data o,
        (bifBinCenter data o pv.1, round2 pv.2) ∈
          computeBifurcationFromData data o) := by
  constructor
  · intro data h50 hne pt hpt
    have hnonempty : data.map (chan · "x") ≠ [] := by
      intro hm
      have := List.map_eq_nil_iff.mp hm
      rw [this] at h50
      simp at h50
    have hmM : listMin (data.map (chan · "x")) ≤ listMax (data.map (chan · "x")) :=
      listMin_le_listMax _ hnonempty
    have hw : 0 < (listMax (data.map (chan · "x")) -
        listMin (data.map (chan · "x"))) / 30 := by
      have : listMin (data.map (chan · "x")) < listMax (data.map (chan · "x")) :=
        lt_of_le_of_ne hmM hne
      have hsub : 0 < listMax (data.map (chan · "x")) -
          listMin (data.map (chan · "x")) := by linarith
      positivity
    simp only [computeBifurcationData] at hpt
    rw [if_neg (by omega)] at hpt
    rw [List.mem_flatMap] at hpt
    obtain ⟨i, hi, hmem⟩ := hpt
    rw [List.mem_range] at hi
    split_ifs at hmem
    · cases hmem
    · obtain ⟨v, _, rfl⟩ := List.mem_map.mp hmem
      have hcast : (i : ℚ) ≤ 29 := by exact_mod_cast Nat.le_of_lt_succ hi
      constructor
      · exact ⟨i, hi, by ring⟩
      · constructor
        · have hx : (listMin (data.map (chan · "x")) +
              (i : ℚ) * ((listMax (data.map (chan · "x")) -
                listMin (data.map (chan · "x"))) / 30) +
              (listMin (data.map (chan · "x")) +
                (i : ℚ) * ((listMax (data.map (chan · "x")) -
                  listMin (data.map (chan · "x"))) / 30) +
                (listMax (data.map (chan · "x")) -
                  listMin (data.map (chan · "x"))) / 30)) / 2 =
              listMin (data.map (chan · "x")) +
                ((i : ℚ) + 1/2) * ((listMax (data.map (chan · "x")) -
                  listMin (data.map (chan · "x"))) / 30) := by ring
          rw [hx]
          nlinarith [hw, hcast, Nat.cast_nonneg (α := ℚ) i]
        · have hx : (listMin (data.map (chan · "x")) +
              (i : ℚ) * ((listMax (data.map (chan · "x")) -
                listMin (data.map (chan · "x"))) / 30) +
              (listMin (data.map (chan · "x")) +
                (i : ℚ) * ((listMax (data.map (chan · "x")) -
                  listMin (data.map (chan · "x"))) / 30) +
                (listMax (data.map (chan · "x")) -
                  listMin (data.map (chan · "x"))) / 30)) / 2 =
              listMin (data.map (chan · "x")) +
                ((i : ℚ) + 1/2) * ((listMax (data.map (chan · "x")) -
                  listMin (data.map (chan · "x"))) / 30) := by ring
          rw [hx]
          nlinarith [hw, hcast, Nat.cast_nonneg (α := ℚ) i]
  · intro data o _ h50 hne pv hpv
    simp only [computeBifurcationFromData]
    rw [if_neg (by omega), if_neg (sub_ne_zero.mpr (fun h => hne (by linarith)))]
    exact mem_flattenBins_foldl (fun q => bifBinCenter data o q.1)
      (fun q => round2 q.2) (bifValues data o) [] pv hpv

/-- Counterexample for C4, both variants, on the boundary scenario
`cexBifData` (49 points at `param = 0`, one point `(param, observable) =
(30, 7)`, so `maxParam = 30`): the playground binner emits no point carrying
the rounded observable `7` — the unique input point with `param = maxParam`
is assigned to no bin (its strict `p < binMax` test drops it) — while the
export binner emits `(30.5, 7)`, whose `x` exceeds `maxParam = 30`. -/
theorem bifurcation_boundary_counterexample :
    (∀ pt ∈ computeBifurcationData cexBifData, pt.2 ≠ 7) ∧
    chan (cexBifData.getD 49 []) "x" = 30 ∧
    chan (cexBifData.getD 49 []) "y" = 7 ∧
    listMax (cexBifData.map (chan · "x")) = 30 ∧
    round1 7 = 7 ∧
    (61/2, 7) ∈ computeBifurcationFromData cexBifData cexBifOptions ∧
    bifBinCenter cexBifData cexBifOptions 30 = 61/2 ∧
    listMax ((bifValues cexBifData cexBifOptions).map Prod.fst) < 61/2 := by
  have hzip : (List.replicate 49 (0 : ℚ) ++ [30]).zip
      (List.replicate 49 (0 : ℚ) ++ [7]) =
      List.replicate 49 ((0 : ℚ), (0 : ℚ)) ++ [(30, 7)] := by
    rw [List.zip_append (by simp), List.zip_replicate, min_self]
    rfl
  refine ⟨?_, by decide, by decide, by rw [cex_params]; exact cex_max,
    by norm_num [round1, jsRound], ?_, ?_, ?_⟩
  · intro pt hpt
    simp only [computeBifurcationData] at hpt
    rw [if_neg (by decide)] at hpt
    rw [cex_params, cex_obs, cex_min, cex_max, hzip] at hpt
    have harith : ((30 : ℚ) - 0) / 30 = 1 := by norm_num
    rw [harith] at hpt
    simp only [mul_one, zero_add] at hpt
    rw [List.mem_flatMap] at hpt
    obtain ⟨i, hi, hmem⟩ := hpt
    rw [List.mem_range] at hi
    split_ifs at hmem
    · cases hmem
    · obtain ⟨v, hv, rfl⟩ := List.mem_map.mp hmem
      have hv' := mem_jsSetList _ _ hv
      obtain ⟨ob, hob, rfl⟩ := List.mem_map.mp hv'
      rw [List.mem_filterMap] at hob
      obtain ⟨⟨p, q⟩, hpq, hf⟩ := hob
      rw [List.mem_append] at hpq
      have hcast : (i : ℚ) ≤ 29 := by exact_mod_cast Nat.le_of_lt_succ hi
      rcases hpq with hpq | hpq
      · have heq : ((p, q) : ℚ × ℚ) = (0, 0) := (List.eq_of_mem_replicate hpq)
        have hq : q = 0 := congrArg Prod.snd heq
        split_ifs at hf
        injection hf with hf
        rw [← hf, hq]
        norm_num [round1, jsRound]
      · have heq : ((p, q) : ℚ × ℚ) = (30, 7) := List.mem_singleton.mp hpq
        have hp : p = 30 := congrArg Prod.fst heq
        split_ifs at hf with hcond
        rw [hp] at hcond
        have : (30 : ℚ) < (i : ℚ) + 1 := hcond.2
        linarith
  · have hmem : ((30 : ℚ), (7 : ℚ)) ∈ bifValues cexBifData cexBifOptions := by
      rw [cex_bifValues]
      simp
    have h : (bifBinCenter cexBifData cexBifOptions ((30 : ℚ), (7 : ℚ)).1,
        round2 ((30 : ℚ), (7 : ℚ)).2) ∈
        computeBifurcationFromData cexBifData cexBifOptions := by
      simp only [computeBifurcationFromData]
      rw [if_neg (by decide),
        if_neg (by rw [cex_bifMax, cex_bifMin]; norm_num)]
      exact mem_flattenBins_foldl (fun q => bifBinCenter cexBifData cexBifOptions q.1)
        (fun q => round2 q.2) (bifValues cexBifData cexBifOptions) [] (30, 7) hmem
    have hc : bifBinCenter cexBifData cexBifOptions 30 = 61/2 := by
      rw [bifBinCenter, bifBinWidth, cex_bifMin, cex_bifMax,
        show cexBifOptions.numBins = 30 from rfl]
      norm_num
    have hr : round2 7 = 7 := by norm_num [round2, jsRound]
    rw [hc, hr] at h
    exact h
  · rw [bifBinCenter, bifBinWidth, cex_bifMin, cex_bifMax,
      show cexBifOptions.numBins = 30 from rfl]
    norm_num
  · rw [cex_bifValues]
    simp only [List.map_append, List.map_replicate, List.map_cons, List.map_nil]
    rw [cex_max]
    norm_num

/-- Witness for C4 (amended): the export binner assigns the boundary point
`(30, 7)` to the bin centered at `bifBinCenter … 30`. -/
theorem bifurcation_binning_amended_witness :
    (bifBinCenter cexBifData cexBifOptions 30, round2 7) ∈
      computeBifurcationFromData cexBifData cexBifOptions :=
  bifurcation_binning_amended.2 cexBifData cexBifOptions (by decide) (by decide)
    (by rw [cex_bifMin, cex_bifMax]; norm_num) (30, 7)
    (by rw [cex_bifValues]; simp)
